import Mathlib

/-!
# Verification of the document-ingestion pipeline

Shallow embedding of the ingestion/change-detection core:

* `src/ingestion/extract.py` — text normalization (`_normalize`), SHA-256
  hashing helpers (`sha256_text`), PDF block extraction and page assembly
  (`_blocks_text`, `extract_pdf_text`);
* `src/routes/database.py` — `upsert_document`, `persist_chunk`, the version
  constants `TOK_VER`/`SEG_VER`;
* `src/routes/corpus.py` — the title-resolution response handling shared by
  `_extract_pdf_title` / `_extract_docx_title`, and the `add_doc` upload flow.

Python strings are embedded as Lean `String`/`List Char`; machine integers do
not occur (Python ints are unbounded); SHA-256 is implemented concretely over
byte lists (`Nat` values < 256) so that hashes evaluate inside the kernel.
-/

namespace Ingest

/-! ## SHA-256 (concrete model of `hashlib.sha256(...).hexdigest()`)

32-bit words are `Nat` values kept below `2^32` by explicit `% 4294967296`.
-/

def add32 (a b : Nat) : Nat := (a + b) % 4294967296

def rotr32 (x n : Nat) : Nat := ((x >>> n) ||| (x <<< (32 - n))) % 4294967296

def bsig0 (x : Nat) : Nat := rotr32 x 2 ^^^ rotr32 x 13 ^^^ rotr32 x 22

def bsig1 (x : Nat) : Nat := rotr32 x 6 ^^^ rotr32 x 11 ^^^ rotr32 x 25

def ssig0 (x : Nat) : Nat := rotr32 x 7 ^^^ rotr32 x 18 ^^^ (x >>> 3)

def ssig1 (x : Nat) : Nat := rotr32 x 17 ^^^ rotr32 x 19 ^^^ (x >>> 10)

def chFn (x y z : Nat) : Nat := (x &&& y) ^^^ ((x ^^^ 4294967295) &&& z)

def majFn (x y z : Nat) : Nat := (x &&& y) ^^^ (x &&& z) ^^^ (y &&& z)

/-- The 64 round constants of FIPS 180-4 §4.2.2 (fractional parts of the
cube roots of the first 64 primes), written in decimal. -/
def shaK : List Nat :=
  [1116352408, 1899447441, 3049323471, 3921009573, 961987163, 1508970993,
   2453635748, 2870763221, 3624381080, 310598401, 607225278, 1426881987,
   1925078388, 2162078206, 2614888103, 3248222580, 3835390401, 4022224774,
   264347078, 604807628, 770255983, 1249150122, 1555081692, 1996064986,
   2554220882, 2821834349, 2952996808, 3210313671, 3336571891, 3584528711,
   113926993, 338241895, 666307205, 773529912, 1294757372, 1396182291,
   1695183700, 1986661051, 2177026350, 2456956037, 2730485921, 2820302411,
   3259730800, 3345764771, 3516065817, 3600352804, 4094571909, 275423344,
   430227734, 506948616, 659060556, 883997877, 958139571, 1322822218,
   1537002063, 1747873779, 1955562222, 2024104815, 2227730452, 2361852424,
   2428436474, 2756734187, 3204031479, 3329325298]

structure Hs where
  a : Nat
  b : Nat
  c : Nat
  d : Nat
  e : Nat
  f : Nat
  g : Nat
  h : Nat
  deriving Repr, DecidableEq

/-- The initial hash value of FIPS 180-4 §5.3.3, written in decimal. -/
def shaInit : Hs :=
  ⟨1779033703, 3144134277, 1013904242, 2773480762,
   1359893119, 2600822924, 528734635, 1541459225⟩

def roundFn (s : Hs) (kw : Nat) : Hs :=
  let t1 := add32 (add32 s.h (bsig1 s.e)) (add32 (chFn s.e s.f s.g) kw)
  let t2 := add32 (bsig0 s.a) (majFn s.a s.b s.c)
  ⟨add32 t1 t2, s.a, s.b, s.c, add32 s.d t1, s.e, s.f, s.g⟩

/-- Big-endian packing of 4 bytes per 32-bit word. -/
def toWords : List Nat → List Nat
  | b0 :: b1 :: b2 :: b3 :: rest =>
      (((b0 * 256 + b1) * 256 + b2) * 256 + b3) :: toWords rest
  | _ => []

/-- Extend the 16-word schedule; the counter is the number of words to add. -/
def extendW : List Nat → Nat → List Nat
  | ws, 0 => ws
  | ws, n+1 =>
      let t := ws.length
      let w := add32 (add32 (ssig1 (ws.getD (t-2) 0)) (ws.getD (t-7) 0))
                     (add32 (ssig0 (ws.getD (t-15) 0)) (ws.getD (t-16) 0))
      extendW (ws ++ [w]) n

def compress (h0 : Hs) (block : List Nat) : Hs :=
  let w := extendW (toWords block) 48
  let kw := List.zipWith add32 shaK w
  let s := List.foldl roundFn h0 kw
  ⟨add32 h0.a s.a, add32 h0.b s.b, add32 h0.c s.c, add32 h0.d s.d,
   add32 h0.e s.e, add32 h0.f s.f, add32 h0.g s.g, add32 h0.h s.h⟩

/-- 8-byte big-endian encoding of the bit length. -/
def beBytes8 (n : Nat) : List Nat :=
  [(n >>> 56) % 256, (n >>> 48) % 256, (n >>> 40) % 256, (n >>> 32) % 256,
   (n >>> 24) % 256, (n >>> 16) % 256, (n >>> 8) % 256, n % 256]

/-- SHA-256 padding: append 0x80, zeros to 56 mod 64, then the bit length. -/
def padBytes (msg : List Nat) : List Nat :=
  let len := msg.length
  let padZeros := (119 - len % 64) % 64
  msg ++ [0x80] ++ List.replicate padZeros 0 ++ beBytes8 (8 * len)

/-- Split into 64-byte blocks; the first argument is recursion fuel
(any value ≥ the list length works). -/
def blocks64 : Nat → List Nat → List (List Nat)
  | 0, _ => []
  | _, [] => []
  | fuel+1, l => l.take 64 :: blocks64 fuel (l.drop 64)

def hexDigit (n : Nat) : Char := if n < 10 then Char.ofNat (48 + n) else Char.ofNat (87 + n)

def hex8 (w : Nat) : List Char :=
  [hexDigit ((w >>> 28) % 16), hexDigit ((w >>> 24) % 16),
   hexDigit ((w >>> 20) % 16), hexDigit ((w >>> 16) % 16),
   hexDigit ((w >>> 12) % 16), hexDigit ((w >>> 8) % 16),
   hexDigit ((w >>> 4) % 16), hexDigit (w % 16)]

def hsHex (s : Hs) : List Char :=
  hex8 s.a ++ hex8 s.b ++ hex8 s.c ++ hex8 s.d ++
  hex8 s.e ++ hex8 s.f ++ hex8 s.g ++ hex8 s.h

/-- Model of `sha256_bytes` (src/ingestion/extract.py): hex digest of SHA-256. -/
def sha256_bytes (msg : List Nat) : String :=
  let padded := padBytes msg
  ⟨hsHex (List.foldl compress shaInit (blocks64 padded.length padded))⟩

/-- UTF-8 encoding of one character (standard RFC 3629 byte layout). -/
def utf8Char (c : Char) : List Nat :=
  let n := c.toNat
  if n < 0x80 then [n]
  else if n < 0x800 then [0xC0 ||| (n >>> 6), 0x80 ||| (n &&& 0x3F)]
  else if n < 0x10000 then
    [0xE0 ||| (n >>> 12), 0x80 ||| ((n >>> 6) &&& 0x3F), 0x80 ||| (n &&& 0x3F)]
  else
    [0xF0 ||| (n >>> 18), 0x80 ||| ((n >>> 12) &&& 0x3F),
     0x80 ||| ((n >>> 6) &&& 0x3F), 0x80 ||| (n &&& 0x3F)]

def strBytes (s : String) : List Nat := s.data.flatMap utf8Char

/-- Model of `sha256_text` (src/ingestion/extract.py):
SHA-256 hex digest of the UTF-8 encoding of a string. -/
def sha256_text (text : String) : String := sha256_bytes (strBytes text)

/-! ## Text normalizer (`_normalize`, src/ingestion/extract.py)

The four regex rules are embedded as structurally recursive scans over
`List Char`, mirroring the leftmost non-overlapping semantics of
`str.replace` / `re.sub`.
-/

/-- Word character for the regex class `\w`: alphanumeric or underscore
(ASCII range; the Unicode extension of `\w` is not needed by any input
considered here). -/
def isWordChar (c : Char) : Bool := c.isAlphanum || c = '_'

/-- `s.replace("\r\n", "\n")`: leftmost non-overlapping replacement. -/
def replCRLF : List Char → List Char
  | '\r' :: '\n' :: rest => '\n' :: replCRLF rest
  | c :: rest => c :: replCRLF rest
  | [] => []

def crToLF (c : Char) : Char := if c = '\r' then '\n' else c

/-- `s.replace("\r", "\n")`: single-character replacement is a map. -/
def replCR (l : List Char) : List Char := l.map crToLF

/-- The two quote rules `re.sub(r"[“”]", '"', s)` and `re.sub(r"[‘’]", "'", s)`:
character-class substitution is a character-wise map. -/
def quoteChar (c : Char) : Char :=
  if c = '“' || c = '”' then '"'
  else if c = '‘' || c = '’' then '\''
  else c

def replQuotes (l : List Char) : List Char := l.map quoteChar

/-- `re.sub(r"(\w)-\n(\w)", r"\1\2", s)`: scan left to right; on a match emit
the two captured word characters and continue after the match; otherwise
advance one character. -/
def dehyphGo : Option Char → List Char → List Char
  | none, [] => []
  | none, c :: rest => dehyphGo (some c) rest
  | some a, [] => [a]
  | some a, '-' :: '\n' :: b :: rest2 =>
      if isWordChar a && isWordChar b then a :: b :: dehyphGo none rest2
      else a :: '-' :: '\n' :: dehyphGo (some b) rest2
  | some a, c :: rest => a :: dehyphGo (some c) rest

def dehyph (l : List Char) : List Char := dehyphGo none l

/-- Whether the de-hyphenation pattern `(\w)-\n(\w)` matches at the head. -/
def winMatch (a : Char) : List Char → Bool
  | '-' :: '\n' :: b :: _ => isWordChar a && isWordChar b
  | _ => false

/-- Whether the de-hyphenation pattern matches anywhere. -/
def hasMatch : List Char → Bool
  | [] => false
  | a :: rest => winMatch a rest || hasMatch rest

/-- `re.sub(r"\n{3,}", "\n\n", s)`: each maximal run of `n ≥ 3` newlines is
replaced by two. The accumulator counts pending newlines; a maximal run of
`n` newlines is emitted as `min n 2` newlines. -/
def collapseGo : Nat → List Char → List Char
  | n, [] => List.replicate (min n 2) '\n'
  | n, c :: rest =>
      if c = '\n' then collapseGo (n+1) rest
      else List.replicate (min n 2) '\n' ++ c :: collapseGo 0 rest

def collapseNL (l : List Char) : List Char := collapseGo 0 l

/-- Whether three consecutive newlines occur at the head. -/
def winTriple (a : Char) : List Char → Bool
  | '\n' :: '\n' :: _ => a = '\n'
  | _ => false

/-- Whether three consecutive newlines occur anywhere. -/
def hasTriple : List Char → Bool
  | [] => false
  | a :: rest => winTriple a rest || hasTriple rest

def normChars (l : List Char) : List Char :=
  collapseNL (dehyph (replQuotes (replCR (replCRLF l))))

/-- Model of `_normalize` (src/ingestion/extract.py): the four rules applied
in source order. -/
def normalize (s : String) : String := ⟨normChars s.data⟩

/-! ## Change-detection store (src/routes/database.py) -/

/-- Python string slice `s[:n]`: the first `n` characters. -/
def takeStr (s : String) (n : Nat) : String := ⟨s.data.take n⟩

/-- `TOK_VER = 1` (src/routes/database.py line 6). -/
def TOK_VER : Nat := 1

/-- `SEG_VER = 1` (src/routes/database.py line 7). -/
def SEG_VER : Nat := 1

/-- A row of the `documents` table.  The `REPLACE INTO documents(...)` in
`upsert_document` names only `doc_id, source_path, file_hash, modified_at`,
so `title` takes the column default `NULL` (`none`). -/
structure DocRow where
  source_path : String
  title : Option String
  file_hash : String
  modified_at : Int
  deriving Repr, DecidableEq

/-- A row of the `chunks` table (keyed by `chunk_id`). -/
structure ChunkRow where
  doc_id : String
  page_start : Option Int
  page_end : Option Int
  sect : Option String
  chunk_hash : String
  content_hash : String
  text : String
  deriving Repr, DecidableEq

/-- The store: the two tables touched by ingestion, as association lists
keyed by their primary keys. -/
structure DB where
  documents : List (String × DocRow)
  chunks : List (String × ChunkRow)
  deriving Repr, DecidableEq

def emptyDB : DB := ⟨[], []⟩

/-- SQLite `REPLACE INTO documents`: delete any row with the same primary
key `doc_id`, then insert the new row. -/
def replaceDocRow (docs : List (String × DocRow)) (doc_id : String) (row : DocRow) :
    List (String × DocRow) :=
  (doc_id, row) :: docs.filter (fun p => p.1 != doc_id)

/-- Model of `upsert_document` (src/routes/database.py lines 74-83).
Returns the store after the call together with the `changed` flag.
`int(mtime)` is modelled by taking `mtime : Int` directly. -/
def upsert_document (db : DB) (doc_id source_path norm_text : String) (mtime : Int) :
    DB × Bool :=
  let file_hash := sha256_text norm_text
  match db.documents.lookup doc_id with
  | some row =>
      if row.file_hash = file_hash then (db, false)
      else ({ db with
              documents := replaceDocRow db.documents doc_id
                ⟨source_path, none, file_hash, mtime⟩ }, true)
  | none =>
      ({ db with
         documents := replaceDocRow db.documents doc_id
           ⟨source_path, none, file_hash, mtime⟩ }, true)

/-- SQLite `REPLACE INTO chunks`: delete rows conflicting with the new row
on the primary key `chunk_id` or on the unique index `(doc_id, chunk_hash)`,
then insert. -/
def replaceChunkRow (chunks : List (String × ChunkRow)) (chunk_id : String)
    (row : ChunkRow) : List (String × ChunkRow) :=
  (chunk_id, row) ::
    chunks.filter (fun p =>
      p.1 != chunk_id && !(p.2.doc_id == row.doc_id && p.2.chunk_hash == row.chunk_hash))

/-- Model of `persist_chunk` (src/routes/database.py lines 85-93), with the
two process-wide version constants made explicit arguments (the module
reads the globals `TOK_VER`/`SEG_VER` at call time).  Returns the store
after the call together with `(chunk_id, content_hash)`. -/
def persist_chunk_v (tokVer segVer : Nat) (db : DB) (doc_id text : String)
    (page_s page_e : Option Int) (sect : Option String) : DB × String × String :=
  let chunk_hash := sha256_text text
  let content_hash :=
    sha256_text (text ++ "|tok=" ++ toString tokVer ++ "|seg=" ++ toString segVer)
  let chunk_id := doc_id ++ ":" ++ takeStr chunk_hash 12
  let row : ChunkRow := ⟨doc_id, page_s, page_e, sect, chunk_hash, content_hash, text⟩
  ({ db with chunks := replaceChunkRow db.chunks chunk_id row }, chunk_id, content_hash)

/-- `persist_chunk` at the version constants active in the source. -/
def persist_chunk (db : DB) (doc_id text : String) (page_s page_e : Option Int)
    (sect : Option String) : DB × String × String :=
  persist_chunk_v TOK_VER SEG_VER db doc_id text page_s page_e sect

/-- `ALLOWED_EXTENSIONS = {"pdf", "doc", "docx"}` (src/routes/corpus.py). -/
def ALLOWED_EXTENSIONS : List String := ["pdf", "doc", "docx"]

def pyLower (s : String) : String := ⟨s.data.map Char.toLower⟩

/-- `filename.rsplit('.', 1)[1]`: the characters after the last dot. -/
def afterLastDot (s : String) : String :=
  ⟨(s.data.reverse.takeWhile (fun c => c != '.')).reverse⟩

/-- Model of `allowed_file` (src/routes/corpus.py line 177):
`"." in filename and filename.rsplit('.', 1)[1].lower() in ALLOWED_EXTENSIONS`. -/
def allowed_file (filename : String) : Bool :=
  filename.data.contains '.' &&
    ALLOWED_EXTENSIONS.contains (pyLower (afterLastDot filename))

/-- Model of the `add_doc` endpoint (src/routes/corpus.py lines 180-231).
`filename` is the (optional) uploaded filename, `save_ok` whether
`file.save` succeeds, `text` the result of `_get_text` on the stored file.
The endpoint performs no store write besides the single `upsert_document`
call: it never calls `persist_chunk` and never calls `_get_title`.
Returns the store and the HTTP status code. -/
def add_doc (db : DB) (filename : Option String) (save_ok : Bool)
    (doc_id file_path text : String) (mtime : Int) : DB × Nat :=
  match filename with
  | none => (db, 400)
  | some fn =>
      if fn = "" then (db, 400)
      else if !allowed_file fn then (db, 400)
      else if !save_ok then (db, 500)
      else ((upsert_document db doc_id file_path text mtime).1, 201)

/-- States reached while persisting a list of chunk texts one call at a
time (each `persist_chunk` ends in `db.commit()`, so each state is
durable/observable). -/
def persistAll (db : DB) (doc_id : String) : List String → List DB
  | [] => []
  | t :: ts =>
      let db2 := (persist_chunk db doc_id t none none none).1
      db2 :: persistAll db2 doc_id ts

/-- The observable store states of one document ingestion composed of
`upsert_document` followed by one `persist_chunk` per chunk text (the
composition described by the spec, §4.5): both functions commit before
returning, so every prefix of the call sequence leaves an observable
state. -/
def ingestStates (db : DB) (doc_id source_path text : String) (mtime : Int)
    (chunkTexts : List String) : List DB :=
  let r := upsert_document db doc_id source_path text mtime
  if r.2 then db :: r.1 :: persistAll r.1 doc_id chunkTexts
  else [db, r.1]

/-! ## PDF extraction (src/ingestion/extract.py)

A page is modelled by its extractable text blocks (the `(x0, y0, ..)`
coordinates already rounded, as the sort key uses them) together with the
text OCR would produce for it.  `fitz`/`pytesseract` are external; the
pipeline around them is what is embedded.
-/

/-- Python `str.strip()` whitespace (ASCII range). -/
def isPySpace (c : Char) : Bool :=
  c = ' ' || c = '\t' || c = '\n' || c = '\r' || c = '\x0c' || c = '\x0b'

def stripChars (l : List Char) : List Char :=
  ((l.dropWhile isPySpace).reverse.dropWhile isPySpace).reverse

/-- Python `str.strip()`. -/
def pyStrip (s : String) : String := ⟨stripChars s.data⟩

/-- One text block of `TextPage.extractBLOCKS()`: `x`/`y` are the sort keys
`(round(b[1], 2), round(b[0], 2))` (vertical first), `text` is `b[4]`. -/
structure Block where
  x : Int
  y : Int
  text : String
  deriving Repr, DecidableEq

/-- The sort key order of `_blocks_text`: vertical position first,
horizontal as tie-break. -/
def blockLE (u v : Block) : Bool := decide (u.y < v.y ∨ (u.y = v.y ∧ u.x ≤ v.x))

/-- Stable insertion (a later-arriving element goes after equal keys),
modelling the stability of Python `list.sort`. -/
def insertOrd {α : Type} (le : α → α → Bool) (x : α) : List α → List α
  | [] => [x]
  | y :: ys => if le x y then x :: y :: ys else y :: insertOrd le x ys

/-- Stable sort by insertion. -/
def sortByLE {α : Type} (le : α → α → Bool) (l : List α) : List α :=
  List.foldr (insertOrd le) [] l

/-- Model of `_blocks_text` (src/ingestion/extract.py lines 17-21): sort the
blocks by `(y, x)`, keep each block's stripped text when non-empty, join
with a blank line.  The comprehension
`[(b[4] or "").strip() for b in blocks if (b[4] or "").strip()]`
is a filter on the stripped text followed by taking the stripped text. -/
def blocks_text (blocks : List Block) : String :=
  let sorted := sortByLE blockLE blocks
  let parts := (sorted.filter (fun b => pyStrip b.text != "")).map (fun b => pyStrip b.text)
  String.intercalate "\n\n" parts

/-- A PDF page as seen by the extraction loop. -/
structure PageData where
  blocks : List Block
  ocr : String
  deriving Repr, DecidableEq

/-- The per-page text of the `extract_pdf_text` loop:
`txt = _blocks_text(tp).strip()`, and if that is empty,
`txt = _ocr_page(page).strip()`. -/
def pageText (p : PageData) : String :=
  let txt := pyStrip (blocks_text p.blocks)
  if txt = "" then pyStrip p.ocr else txt

/-- Model of `extract_pdf_text` (src/ingestion/extract.py lines 42-54):
page texts joined with `"\n\n\f\n\n"`, the result stripped
(`raw = "\n\n\f\n\n".join(out_parts).strip()`), then normalized. -/
def extract_pdf_text (pages : List PageData) : String :=
  normalize (pyStrip (String.intercalate "\n\n\x0c\n\n" (pages.map pageText)))

/-- The extraction result exactly as claim C4 words it: per-page text is the
block extraction (blocks sorted, empty blocks discarded, survivors joined
with a blank line), OCR text if and only if that is empty; the page texts
joined with the separator; the Normalizer applied exactly once — and
nothing else (in particular no stripping step). -/
def extractPdfClaim (pages : List PageData) : String :=
  normalize (String.intercalate "\n\n\x0c\n\n" (pages.map (fun p =>
    let txt := String.intercalate "\n\n"
      (((sortByLE blockLE p.blocks).map Block.text).filter (fun t => t != ""))
    if txt = "" then p.ocr else txt)))

/-- The extraction formula of claim C4 amended by what the code adds: each
block's text is stripped (and whitespace-only blocks are the discarded
ones), the chosen OCR text is stripped, and the joined document text is
stripped before the single Normalizer application. -/
def extractPdfAmended (pages : List PageData) : String :=
  normalize (pyStrip (String.intercalate "\n\n\x0c\n\n" (pages.map (fun p =>
    let txt := pyStrip (String.intercalate "\n\n"
      (((sortByLE blockLE p.blocks).map (fun b => pyStrip b.text)).filter
        (fun t => t != "")))
    if txt = "" then pyStrip p.ocr else txt))))

/-! ## Title resolution (src/routes/corpus.py)

`_extract_pdf_title` and `_extract_docx_title` share the same handling of
the credential and of the model response; that shared logic is embedded.
The response is `Except.error ()` when the completion call raises (caught by
the inner `except Exception`), and `Except.ok content` for a returned
content string (`""` models both an empty content and an empty choice
list, matching `content or ""`).
-/

/-- Characters stripped by `title_line.strip('"\' ')`. -/
def isQuoteSpace (c : Char) : Bool := c = '"' || c = '\'' || c = ' '

def stripQuoteSpace (s : String) : String :=
  ⟨((s.data.dropWhile isQuoteSpace).reverse.dropWhile isQuoteSpace).reverse⟩

/-- Line-break characters of Python `str.splitlines` (ASCII range). -/
def isLineBreakChar (c : Char) : Bool :=
  c = '\n' || c = '\r' || c = '\x0b' || c = '\x0c'

/-- Python `str.splitlines`: split at line breaks (`\r\n` counts once), no
trailing empty line. -/
def splitLinesGo : List Char → List Char → List (List Char)
  | acc, [] => if acc = [] then [] else [acc.reverse]
  | acc, '\r' :: '\n' :: rest => acc.reverse :: splitLinesGo [] rest
  | acc, c :: rest =>
      if isLineBreakChar c then acc.reverse :: splitLinesGo [] rest
      else splitLinesGo (c :: acc) rest

def splitLines (s : String) : List String :=
  (splitLinesGo [] s.data).map fun l => ⟨l⟩

/-- `next((ln.strip() for ln in candidate.splitlines() if ln.strip()), "")`:
the first line with non-empty stripped text, stripped. -/
def firstNonemptyLine (s : String) : String :=
  (((splitLines s).map pyStrip).filter (fun t => t != "")).headD ""

/-- The response handling shared by `_extract_pdf_title` and
`_extract_docx_title` (src/routes/corpus.py lines 94-114 and 150-170):
an exception or an empty candidate yields "Unknown"; otherwise the first
non-empty line, stripped of quotes and spaces, is rejected as "Unknown"
when empty, case-insensitively equal to "unknown", or longer than 200
characters. -/
def titleFromResponse (resp : Except Unit String) : String :=
  match resp with
  | .error _ => "Unknown"
  | .ok content =>
      let candidate := pyStrip content
      if candidate = "" then "Unknown"
      else
        let title_line := stripQuoteSpace (firstNonemptyLine candidate)
        if title_line = "" ∨ pyLower title_line = "unknown" ∨ title_line.length > 200 then
          "Unknown"
        else title_line

/-- The credential gate around the completion call: with no API key the
functions return "Unknown" before any call is made. -/
def resolveTitle (api_key : Option String) (resp : Except Unit String) : String :=
  match api_key with
  | none => "Unknown"
  | some _ => titleFromResponse resp

/-! ## Sanity checks of the embedding -/

/-- NIST test vector: digest of the empty message. -/
theorem sha256_empty_vector :
    sha256_text "" = "e3b0c44298fc1c149afbf4c8996fb92427ae41e4649b934ca495991b7852b855" := by
  decide

/-- NIST test vector: digest of "abc". -/
theorem sha256_abc_vector :
    sha256_text "abc" = "ba7816bf8f01cfea414140de5dae2223b00361a396177a9cb410ff61f20015ad" := by
  decide

example : normalize "a-\nb" = "ab" := by decide

example : normalize "x\r\ny\rz" = "x\ny\nz" := by decide

example : normalize "“q”‘r’" = "\"q\"\x27r\x27" := by decide

example : normalize "a\n\n\n\n\nb" = "a\n\nb" := by decide

example : normalize "a-\nb-\nc" = "ab-\nc" := by decide

example : allowed_file "report" = false := by decide

example : allowed_file "report.PDF" = true := by decide

example : splitLines "a\nb\r\nc\n" = ["a", "b", "c"] := by decide

/-! ## Claim C6: chunk identity -/

/-- C6: `persist_chunk` derives `chunk_id` deterministically from `doc_id`
and the first 12 hexadecimal characters of `chunk_hash = digest(text)`,
independently of the store and of the page-range and section arguments, so
two calls with identical `(doc_id, text)` return the same `chunk_id`. -/
theorem persist_chunk_id_content_addressed
    (db db' : DB) (doc_id text : String) (ps pe ps' pe' : Option Int)
    (sect sect' : Option String) :
    (persist_chunk db doc_id text ps pe sect).2.1
        = doc_id ++ ":" ++ takeStr (sha256_text text) 12
    ∧ (persist_chunk db doc_id text ps pe sect).2.1
        = (persist_chunk db' doc_id text ps' pe' sect').2.1 := by
  exact ⟨rfl, rfl⟩

/-! ## Claim C5: chunk hashes and version sensitivity -/

/-- C5: `persist_chunk` computes `chunk_hash = digest(text)` (stored in the
chunk row, independent of the version tags) and
`content_hash = digest(text ++ "|tok=" ++ TOK ++ "|seg=" ++ SEG)` (the
returned value); two calls with identical text but different active
version values store the same `chunk_hash`, and their content hashes are
the digests of distinct version-tagged strings — different whenever those
digests differ, as witnessed concretely. -/
theorem persist_chunk_version_sensitivity
    (db₁ db₂ : DB) (d₁ d₂ text : String) (tok₁ seg₁ tok₂ seg₂ : Nat)
    (ps₁ pe₁ ps₂ pe₂ : Option Int) (s₁ s₂ : Option String)
    (h : sha256_text (text ++ "|tok=" ++ toString tok₁ ++ "|seg=" ++ toString seg₁)
       ≠ sha256_text (text ++ "|tok=" ++ toString tok₂ ++ "|seg=" ++ toString seg₂)) :
    ((persist_chunk_v tok₁ seg₁ db₁ d₁ text ps₁ pe₁ s₁).1.chunks.head?.map
        (fun p => p.2.chunk_hash) = some (sha256_text text))
    ∧ ((persist_chunk_v tok₂ seg₂ db₂ d₂ text ps₂ pe₂ s₂).1.chunks.head?.map
        (fun p => p.2.chunk_hash) = some (sha256_text text))
    ∧ (persist_chunk_v tok₁ seg₁ db₁ d₁ text ps₁ pe₁ s₁).2.2
        = sha256_text (text ++ "|tok=" ++ toString tok₁ ++ "|seg=" ++ toString seg₁)
    ∧ (persist_chunk_v tok₂ seg₂ db₂ d₂ text ps₂ pe₂ s₂).2.2
        = sha256_text (text ++ "|tok=" ++ toString tok₂ ++ "|seg=" ++ toString seg₂)
    ∧ (persist_chunk_v tok₁ seg₁ db₁ d₁ text ps₁ pe₁ s₁).2.2
        ≠ (persist_chunk_v tok₂ seg₂ db₂ d₂ text ps₂ pe₂ s₂).2.2 := by
  exact ⟨rfl, rfl, rfl, rfl, h⟩

set_option maxRecDepth 8000 in
/-- Witness for C5 at concrete inputs: bumping `TOK_VER` from 1 to 2
changes the content hash of the chunk text "a" while the chunk hash stays
`digest("a")`. -/
theorem persist_chunk_version_sensitivity_witness :
    ((persist_chunk_v 1 1 emptyDB "d" "a" none none none).1.chunks.head?.map
        (fun p => p.2.chunk_hash) = some (sha256_text "a"))
    ∧ ((persist_chunk_v 2 1 emptyDB "d" "a" none none none).1.chunks.head?.map
        (fun p => p.2.chunk_hash) = some (sha256_text "a"))
    ∧ (persist_chunk_v 1 1 emptyDB "d" "a" none none none).2.2
        = sha256_text ("a" ++ "|tok=" ++ toString 1 ++ "|seg=" ++ toString 1)
    ∧ (persist_chunk_v 2 1 emptyDB "d" "a" none none none).2.2
        = sha256_text ("a" ++ "|tok=" ++ toString 2 ++ "|seg=" ++ toString 1)
    ∧ (persist_chunk_v 1 1 emptyDB "d" "a" none none none).2.2
        ≠ (persist_chunk_v 2 1 emptyDB "d" "a" none none none).2.2 :=
  persist_chunk_version_sensitivity emptyDB emptyDB "d" "d" "a" 1 1 2 1
    none none none none none none (by decide)

/-! ## Store lemmas -/

theorem lookup_replaceDocRow_self (docs : List (String × DocRow)) (id : String)
    (row : DocRow) : (replaceDocRow docs id row).lookup id = some row := by
  simp [replaceDocRow, List.lookup]

theorem mem_replaceDocRow (docs : List (String × DocRow)) (id : String)
    (row : DocRow) (p : String × DocRow) (hp : p ∈ replaceDocRow docs id row) :
    p = (id, row) ∨ p ∈ docs := by
  unfold replaceDocRow at hp
  rcases List.mem_cons.mp hp with h | h
  · exact Or.inl h
  · exact Or.inr (List.mem_of_mem_filter h)

/-- After any `upsert_document` call the stored row for `doc_id` carries the
digest of the text just passed (either it already did, or it was written). -/
theorem upsert_lookup_hash (db : DB) (id sp t : String) (m : Int) :
    ∃ row, (upsert_document db id sp t m).1.documents.lookup id = some row
      ∧ row.file_hash = sha256_text t := by
  unfold upsert_document
  cases h : db.documents.lookup id with
  | none =>
      exact ⟨⟨sp, none, sha256_text t, m⟩,
        lookup_replaceDocRow_self db.documents id _, rfl⟩
  | some row =>
      by_cases hh : row.file_hash = sha256_text t
      · simpa [hh] using ⟨row, h, hh⟩
      · exact ⟨⟨sp, none, sha256_text t, m⟩,
          by simp [hh, lookup_replaceDocRow_self], rfl⟩

/-- `upsert_document` never touches the chunks table. -/
theorem upsert_chunks_unchanged (db : DB) (id sp t : String) (m : Int) :
    (upsert_document db id sp t m).1.chunks = db.chunks := by
  unfold upsert_document
  cases h : db.documents.lookup id with
  | none => rfl
  | some row => by_cases hh : row.file_hash = sha256_text t <;> simp [hh]

/-! ## Claim C1: document-level change detection -/

/-- C1: `upsert_document` computes `file_hash = digest(norm_text)`; with an
existing row carrying that hash it returns `changed = false` and performs
no write; otherwise it replaces the row (hash, path, timestamp, no title)
and returns `changed = true`.  Hence a second call with byte-identical text
is a no-op returning `false`, while a second call with text of a different
digest returns `true` and stores that different digest. -/
theorem upsert_document_change_detection
    (db : DB) (id sp sp' t t' : String) (m m' : Int)
    (hne : sha256_text t ≠ sha256_text t') :
    (∀ row, db.documents.lookup id = some row → row.file_hash = sha256_text t →
        upsert_document db id sp t m = (db, false))
    ∧ ((∀ row, db.documents.lookup id = some row → row.file_hash ≠ sha256_text t) →
        upsert_document db id sp t m
          = ({ db with documents := replaceDocRow db.documents id ⟨sp, none, sha256_text t, m⟩ }, true))
    ∧ upsert_document (upsert_document db id sp t m).1 id sp' t m'
        = ((upsert_document db id sp t m).1, false)
    ∧ (upsert_document (upsert_document db id sp t m).1 id sp' t' m').2 = true
    ∧ ∀ row, (upsert_document (upsert_document db id sp t m).1 id sp' t' m').1.documents.lookup id
          = some row → row.file_hash = sha256_text t' ∧ row.file_hash ≠ sha256_text t := by
  obtain ⟨row₁, hl₁, hh₁⟩ := upsert_lookup_hash db id sp t m
  set D := (upsert_document db id sp t m).1 with hD
  refine ⟨?_, ?_, ?_, ?_, ?_⟩
  · intro row h hh
    unfold upsert_document
    rw [h]
    simp [hh]
  · intro hall
    unfold upsert_document
    cases h : db.documents.lookup id with
    | none => rfl
    | some row => simp [hall row h]
  · show upsert_document D id sp' t m' = (D, false)
    unfold upsert_document
    rw [hl₁]
    simp [hh₁]
  · show (upsert_document D id sp' t' m').2 = true
    unfold upsert_document
    rw [hl₁]
    simp [hh₁, hne]
  · intro row hrow
    have hsome : (upsert_document D id sp' t' m').1.documents.lookup id
        = some (⟨sp', none, sha256_text t', m'⟩ : DocRow) := by
      unfold upsert_document
      rw [hl₁]
      simp only [hh₁]
      rw [if_neg hne]
      exact lookup_replaceDocRow_self D.documents id _
    rw [hsome] at hrow
    cases hrow
    exact ⟨rfl, fun hcontra => hne hcontra.symm⟩

set_option maxRecDepth 8000 in
/-- Witness for C1 at concrete inputs: ingesting text "a" as document "d"
into the empty store, re-ingesting "a" is a no-op returning `false`, and
re-ingesting "b" returns `true` and stores the different digest of "b". -/
theorem upsert_document_change_detection_witness :
    (∀ row, emptyDB.documents.lookup "d" = some row → row.file_hash = sha256_text "a" →
        upsert_document emptyDB "d" "p" "a" 0 = (emptyDB, false))
    ∧ ((∀ row, emptyDB.documents.lookup "d" = some row → row.file_hash ≠ sha256_text "a") →
        upsert_document emptyDB "d" "p" "a" 0
          = ({ emptyDB with documents := replaceDocRow emptyDB.documents "d" ⟨"p", none, sha256_text "a", 0⟩ }, true))
    ∧ upsert_document (upsert_document emptyDB "d" "p" "a" 0).1 "d" "q" "a" 1
        = ((upsert_document emptyDB "d" "p" "a" 0).1, false)
    ∧ (upsert_document (upsert_document emptyDB "d" "p" "a" 0).1 "d" "q" "b" 1).2 = true
    ∧ ∀ row, (upsert_document (upsert_document emptyDB "d" "p" "a" 0).1 "d" "q" "b" 1).1.documents.lookup "d"
          = some row → row.file_hash = sha256_text "b" ∧ row.file_hash ≠ sha256_text "a" :=
  upsert_document_change_detection emptyDB "d" "p" "q" "a" "b" 0 1 (by decide)

/-! ## Claim C10: no title through ingestion -/

/-- The upload endpoint leaves the store untouched (rejected upload) or
changes it exactly by its single `upsert_document` call. -/
theorem add_doc_documents (db : DB) (fn : Option String) (sv : Bool)
    (id fp t : String) (m : Int) :
    (add_doc db fn sv id fp t m).1 = db
    ∨ (add_doc db fn sv id fp t m).1 = (upsert_document db id fp t m).1 := by
  unfold add_doc
  cases fn with
  | none => exact Or.inl rfl
  | some f =>
      by_cases h0 : f = ""
      · simp [h0]
      · by_cases h1 : allowed_file f
        · by_cases h2 : sv
          · simp [h0, h1, h2]
          · simp [h0, h1, h2]
        · simp [h0, h1]

/-- `upsert_document` preserves absence of titles across the table. -/
theorem upsert_title_invariant (db : DB) (id sp t : String) (m : Int)
    (hall : ∀ p ∈ db.documents, p.2.title = none) :
    ∀ p ∈ (upsert_document db id sp t m).1.documents, p.2.title = none := by
  unfold upsert_document
  cases h : db.documents.lookup id with
  | none =>
      intro p hp
      rcases mem_replaceDocRow _ _ _ _ hp with h' | h'
      · rw [h']
      · exact hall p h'
  | some row =>
      by_cases hh : row.file_hash = sha256_text t
      · simpa [hh] using hall
      · intro p hp
        simp only [hh] at hp
        rw [if_neg not_false] at hp
        rcases mem_replaceDocRow _ _ _ _ hp with h' | h'
        · rw [h']
        · exact hall p h'

/-- C10: the `REPLACE INTO documents` statement omits the `title` column,
so every row `upsert_document` writes has an absent title (a replace also
clears any previously stored one); and `add_doc` touches the store only
through `upsert_document` (it never calls the title-extraction functions),
so ingestion preserves title-absence across the whole documents table. -/
theorem ingestion_leaves_title_absent
    (db : DB) (fn : Option String) (sv : Bool) (id fp t : String) (m : Int) :
    ((upsert_document db id fp t m).2 = true →
        (upsert_document db id fp t m).1.documents.lookup id
          = some ⟨fp, none, sha256_text t, m⟩)
    ∧ ((∀ p ∈ db.documents, p.2.title = none) →
        ∀ p ∈ (add_doc db fn sv id fp t m).1.documents, p.2.title = none) := by
  constructor
  · intro hch
    unfold upsert_document at hch ⊢
    cases h : db.documents.lookup id with
    | none => exact lookup_replaceDocRow_self db.documents id _
    | some row =>
        rw [h] at hch
        by_cases hh : row.file_hash = sha256_text t
        · simp [hh] at hch
        · simp only [hh]
          rw [if_neg not_false]
          exact lookup_replaceDocRow_self db.documents id _
  · intro hall p hp
    rcases add_doc_documents db fn sv id fp t m with h | h
    · rw [h] at hp
      exact hall p hp
    · rw [h] at hp
      exact upsert_title_invariant db id fp t m hall p hp

/-- Witness for C10: ingesting "t" as a fresh document "d" through the
upload endpoint leaves every stored document row without a title. -/
theorem ingestion_leaves_title_absent_witness :
    (upsert_document emptyDB "d" "p" "t" 0).1.documents.lookup "d"
      = some ⟨"p", none, sha256_text "t", 0⟩
    ∧ ∀ p ∈ (add_doc emptyDB (some "r.pdf") true "d" "p" "t" 0).1.documents,
        p.2.title = none :=
  ⟨(ingestion_leaves_title_absent emptyDB (some "r.pdf") true "d" "p" "t" 0).1 rfl,
   (ingestion_leaves_title_absent emptyDB (some "r.pdf") true "d" "p" "t" 0).2
     (by simp [emptyDB])⟩

/-! ## Claim C3: (non-)atomicity of one document's ingestion -/

/-- Counterexample to C3 as stated: ingesting document "d" with text "t"
and one intended chunk "c" into the empty store passes through an
observable committed state (both store functions end in `db.commit()`)
whose document row already carries the new `file_hash` while the chunks
table is still empty — exactly the partial document the claim says is
never observable. -/
theorem ingestion_not_atomic_counterexample :
    ∃ s ∈ ingestStates emptyDB "d" "p" "t" 0 ["c"],
      (∃ row, s.documents.lookup "d" = some row ∧ row.file_hash = sha256_text "t")
      ∧ s.chunks = [] ∧ ["c"] ≠ ([] : List String) := by
  refine ⟨(upsert_document emptyDB "d" "p" "t" 0).1, ?_,
    ⟨⟨"p", none, sha256_text "t", 0⟩, ?_, rfl⟩, rfl, by simp⟩
  · have htrace : ingestStates emptyDB "d" "p" "t" 0 ["c"]
        = emptyDB :: (upsert_document emptyDB "d" "p" "t" 0).1
            :: persistAll (upsert_document emptyDB "d" "p" "t" 0).1 "d" ["c"] := rfl
    rw [htrace]
    exact List.mem_cons_of_mem _ (List.mem_cons_self _ _)
  · exact lookup_replaceDocRow_self emptyDB.documents "d" _

/-- C3 amended: each of the two operations commits individually, but their
composition is not atomic: whenever `upsert_document` reports a change,
the ingestion trace contains an observable intermediate state whose
document row already holds the new `file_hash` while the chunks table is
exactly what it was before the call — the prior document row is replaced
before any chunk is written, and a failure between the calls leaves this
partial state behind. -/
theorem ingestion_commits_document_before_chunks
    (db : DB) (id sp t : String) (m : Int) (cts : List String)
    (hch : (upsert_document db id sp t m).2 = true) :
    ∃ s ∈ ingestStates db id sp t m cts,
      s = (upsert_document db id sp t m).1
      ∧ (∃ row, s.documents.lookup id = some row ∧ row.file_hash = sha256_text t)
      ∧ s.chunks = db.chunks := by
  obtain ⟨row, hl, hh⟩ := upsert_lookup_hash db id sp t m
  refine ⟨(upsert_document db id sp t m).1, ?_, rfl, ⟨row, hl, hh⟩,
    upsert_chunks_unchanged db id sp t m⟩
  have htrace : ingestStates db id sp t m cts
      = db :: (upsert_document db id sp t m).1
          :: persistAll (upsert_document db id sp t m).1 id cts := by
    unfold ingestStates
    simp [hch]
  rw [htrace]
  exact List.mem_cons_of_mem _ (List.mem_cons_self _ _)

/-- Witness for the amended C3 at concrete inputs. -/
theorem ingestion_commits_document_before_chunks_witness :
    ∃ s ∈ ingestStates emptyDB "e" "p" "t" 0 ["c1", "c2"],
      s = (upsert_document emptyDB "e" "p" "t" 0).1
      ∧ (∃ row, s.documents.lookup "e" = some row ∧ row.file_hash = sha256_text "t")
      ∧ s.chunks = emptyDB.chunks :=
  ingestion_commits_document_before_chunks emptyDB "e" "p" "t" 0 ["c1", "c2"] rfl

/-! ## Claim C8: title resolution -/

set_option maxRecDepth 8000 in
/-- Counterexample to C8 as stated: with a credential present, a response
203 characters long (first line "T", then 201 filler characters) is longer
than 200 characters, yet the resolver returns "T" rather than the
"Unknown" sentinel — the source applies the length cap to the extracted
first non-empty line, not to the response. -/
theorem resolveTitle_overlength_counterexample :
    200 < ("T\n".append ⟨List.replicate 201 'x'⟩).length
    ∧ resolveTitle (some "k") (Except.ok ("T\n".append ⟨List.replicate 201 'x'⟩)) = "T"
    ∧ "T" ≠ "Unknown" := by
  refine ⟨by decide, by decide, by decide⟩

/-- C8 amended: the resolver returns "Unknown" whenever the credential is
absent, the external call raises, or the candidate title is unusable —
where the emptiness, case-insensitive "Unknown" and over-length (>200)
checks are applied to the candidate title line (the first non-empty line
of the stripped response, stripped of surrounding quote/space characters),
not to the whole response; otherwise it returns exactly that candidate
line.  It is a total function of credential and response, so no failure of
the external call escapes to the caller. -/
theorem resolveTitle_contract (k content : String) (resp : Except Unit String) :
    resolveTitle none resp = "Unknown"
    ∧ resolveTitle (some k) (Except.error ()) = "Unknown"
    ∧ (pyStrip content = "" → resolveTitle (some k) (Except.ok content) = "Unknown")
    ∧ (pyStrip content ≠ "" →
        (stripQuoteSpace (firstNonemptyLine (pyStrip content)) = ""
          ∨ pyLower (stripQuoteSpace (firstNonemptyLine (pyStrip content))) = "unknown"
          ∨ (stripQuoteSpace (firstNonemptyLine (pyStrip content))).length > 200 →
            resolveTitle (some k) (Except.ok content) = "Unknown")
        ∧ (stripQuoteSpace (firstNonemptyLine (pyStrip content)) ≠ ""
            ∧ pyLower (stripQuoteSpace (firstNonemptyLine (pyStrip content))) ≠ "unknown"
            ∧ ¬ (stripQuoteSpace (firstNonemptyLine (pyStrip content))).length > 200 →
            resolveTitle (some k) (Except.ok content)
              = stripQuoteSpace (firstNonemptyLine (pyStrip content)))) := by
  refine ⟨rfl, rfl, ?_, ?_⟩
  · intro h
    simp only [resolveTitle, titleFromResponse]
    rw [if_pos h]
  · intro hne
    constructor
    · intro hbad
      simp only [resolveTitle, titleFromResponse]
      rw [if_neg hne, if_pos hbad]
    · intro hgood
      simp only [resolveTitle, titleFromResponse]
      rw [if_neg hne, if_neg ?_]
      push_neg at hgood ⊢
      exact ⟨hgood.1, hgood.2.1, hgood.2.2⟩

set_option maxRecDepth 4000 in
/-- Witness for the amended C8 at concrete responses: no credential, a
raised call, a whitespace-only response, a quoted case-variant "Unknown"
response, and a usable title line followed by body text. -/
theorem resolveTitle_contract_witness :
    resolveTitle none (Except.ok "x") = "Unknown"
    ∧ resolveTitle (some "k") (Except.error ()) = "Unknown"
    ∧ resolveTitle (some "k") (Except.ok "  ") = "Unknown"
    ∧ resolveTitle (some "k") (Except.ok "\"unKnown\"") = "Unknown"
    ∧ resolveTitle (some "k") (Except.ok " My Title \nbody") = "My Title" :=
  ⟨(resolveTitle_contract "k" "x" (Except.ok "x")).1,
   (resolveTitle_contract "k" "x" (Except.error ())).2.1,
   (resolveTitle_contract "k" "  " (Except.ok "  ")).2.2.1 (by decide),
   ((resolveTitle_contract "k" "\"unKnown\"" (Except.ok "\"unKnown\"")).2.2.2
     (by decide)).1 (by decide),
   ((resolveTitle_contract "k" " My Title \nbody" (Except.ok " My Title \nbody")).2.2.2
     (by decide)).2 (by decide)⟩

/-! ## Claim C4: PDF extraction pipeline -/

set_option maxRecDepth 4000 in
/-- Counterexample to C4 as stated: for a two-page document whose first
page yields no text (block extraction empty, OCR empty) and whose second
page yields "a", the code strips the joined text before normalizing and
returns "a", while the claim's formula (join, then normalize, nothing
else) keeps the leading separator — the claim omits the
`"\n\n\f\n\n".join(...).strip()` stripping step. -/
theorem extract_pdf_strip_counterexample :
    extract_pdf_text [⟨[], ""⟩, ⟨[⟨0, 0, "a"⟩], ""⟩] = "a"
    ∧ extractPdfClaim [⟨[], ""⟩, ⟨[⟨0, 0, "a"⟩], ""⟩] = "\n\n\x0c\n\na"
    ∧ extract_pdf_text [⟨[], ""⟩, ⟨[⟨0, 0, "a"⟩], ""⟩]
        ≠ extractPdfClaim [⟨[], ""⟩, ⟨[⟨0, 0, "a"⟩], ""⟩] := by
  refine ⟨by decide, by decide, by decide⟩

/-- C4 amended: `extract_pdf_text` equals the claim's formula amended by
the stripping the code performs (each block's text stripped and
whitespace-only blocks discarded, the chosen OCR text stripped, and the
joined document text stripped before the single Normalizer application);
and per page the OCR text is used exactly when the stripped block
extraction is empty. -/
theorem extract_pdf_text_amended (pages : List PageData) :
    extract_pdf_text pages = extractPdfAmended pages
    ∧ ∀ p : PageData,
        (pyStrip (blocks_text p.blocks) = "" → pageText p = pyStrip p.ocr)
        ∧ (pyStrip (blocks_text p.blocks) ≠ "" →
            pageText p = pyStrip (blocks_text p.blocks)) := by
  have hmapfilter : ∀ (l : List Block),
      (l.filter (fun b => pyStrip b.text != "")).map (fun b => pyStrip b.text)
        = (l.map (fun b => pyStrip b.text)).filter (fun t => t != "") := by
    intro l
    induction l with
    | nil => rfl
    | cons b bl ih =>
        by_cases hb : pyStrip b.text = "" <;> simp [List.filter_cons, hb, ih]
  constructor
  · unfold extract_pdf_text extractPdfAmended
    have hpage : pages.map pageText = pages.map (fun p =>
        let txt := pyStrip (String.intercalate "\n\n"
          (((sortByLE blockLE p.blocks).map (fun b => pyStrip b.text)).filter
            (fun t => t != "")))
        if txt = "" then pyStrip p.ocr else txt) := by
      apply List.map_congr_left
      intro p _
      unfold pageText blocks_text
      simp only [hmapfilter]
    rw [hpage]
  · intro p
    constructor
    · intro h
      unfold pageText
      rw [if_pos h]
    · intro h
      unfold pageText
      rw [if_neg h]

/-- Witness for the amended C4: a two-page document with out-of-order
blocks on the first page (sorted by vertical then horizontal position) and
an OCR-only second page. -/
theorem extract_pdf_text_amended_witness :
    extract_pdf_text [⟨[⟨0, 5, "low"⟩, ⟨0, 1, "high"⟩], ""⟩, ⟨[], " ocr "⟩]
        = extractPdfAmended [⟨[⟨0, 5, "low"⟩, ⟨0, 1, "high"⟩], ""⟩, ⟨[], " ocr "⟩]
    ∧ (pyStrip (blocks_text ([] : List Block)) = "" →
        pageText ⟨[], " ocr "⟩ = pyStrip " ocr ")
    ∧ extract_pdf_text [⟨[⟨0, 5, "low"⟩, ⟨0, 1, "high"⟩], ""⟩, ⟨[], " ocr "⟩]
        = "high\n\nlow\n\n\x0c\n\nocr" :=
  ⟨(extract_pdf_text_amended [⟨[⟨0, 5, "low"⟩, ⟨0, 1, "high"⟩], ""⟩, ⟨[], " ocr "⟩]).1,
   fun h => ((extract_pdf_text_amended [⟨[⟨0, 5, "low"⟩, ⟨0, 1, "high"⟩], ""⟩, ⟨[], " ocr "⟩]).2
     ⟨[], " ocr "⟩).1 h,
   by decide⟩

/-! ## Normalizer lemmas

Building blocks for claims C2, C7 and C9: what each rule removes, when each
rule is the identity, and how the de-hyphenation and newline-collapse scans
interact.
-/

theorem hasMatch_cons (c : Char) (l : List Char) :
    hasMatch (c :: l) = (winMatch c l || hasMatch l) := rfl

theorem winMatch_eq_false_of_nonword (a : Char) (l : List Char)
    (h : isWordChar a = false) : winMatch a l = false := by
  unfold winMatch
  split <;> simp [h]

theorem crToLF_ne_cr (c : Char) : crToLF c ≠ '\r' := by
  unfold crToLF
  split <;> simp_all

theorem cr_not_mem_replCR (l : List Char) : '\r' ∉ replCR l := by
  intro h
  obtain ⟨a, _, ha⟩ := List.mem_map.mp h
  exact crToLF_ne_cr a ha

theorem quoteChar_not_curly (c : Char) :
    quoteChar c ≠ '“' ∧ quoteChar c ≠ '”' ∧ quoteChar c ≠ '‘' ∧ quoteChar c ≠ '’' := by
  unfold quoteChar
  split <;> [skip; split] <;> simp_all

theorem quoteChar_eq_cr (c : Char) (h : quoteChar c = '\r') : c = '\r' := by
  unfold quoteChar at h
  split at h <;> [skip; split at h] <;> simp_all

theorem cr_not_mem_replQuotes (l : List Char) (hl : '\r' ∉ l) :
    '\r' ∉ replQuotes l := by
  intro h
  obtain ⟨a, ha, hq⟩ := List.mem_map.mp h
  exact hl (quoteChar_eq_cr a hq ▸ ha)

theorem curly_not_mem_replQuotes (l : List Char) (q : Char)
    (hq : q = '“' ∨ q = '”' ∨ q = '‘' ∨ q = '’') : q ∉ replQuotes l := by
  intro h
  obtain ⟨a, _, ha⟩ := List.mem_map.mp h
  have := quoteChar_not_curly a
  rcases hq with h1 | h1 | h1 | h1 <;> subst h1 <;> simp_all

theorem replCRLF_id (l : List Char) (h : '\r' ∉ l) : replCRLF l = l := by
  induction l using replCRLF.induct with
  | case1 rest _ => simp at h
  | case2 c rest hne ih =>
      have : '\r' ∉ rest := fun hr => h (List.mem_cons_of_mem c hr)
      rw [replCRLF.eq_2 c rest hne, ih this]
  | case3 => rfl

theorem replCR_id (l : List Char) (h : '\r' ∉ l) : replCR l = l := by
  unfold replCR
  induction l with
  | nil => rfl
  | cons c rest ih =>
      have hc : c ≠ '\r' := fun hc => h (hc ▸ List.mem_cons_self c rest)
      have : '\r' ∉ rest := fun hr => h (List.mem_cons_of_mem c hr)
      simp only [List.map_cons, ih this]
      unfold crToLF
      rw [if_neg hc]

theorem replQuotes_id (l : List Char)
    (h : ∀ q ∈ l, q ≠ '“' ∧ q ≠ '”' ∧ q ≠ '‘' ∧ q ≠ '’') : replQuotes l = l := by
  unfold replQuotes
  induction l with
  | nil => rfl
  | cons c rest ih =>
      have hc := h c (List.mem_cons_self c rest)
      have hrest : ∀ q ∈ rest, q ≠ '“' ∧ q ≠ '”' ∧ q ≠ '‘' ∧ q ≠ '’' :=
        fun q hq => h q (List.mem_cons_of_mem c hq)
      simp only [List.map_cons, ih hrest]
      unfold quoteChar
      rw [if_neg (by simp [hc.1, hc.2.1]), if_neg (by simp [hc.2.2.1, hc.2.2.2])]

theorem dehyphGo_sublist (o : Option Char) (l : List Char) :
    List.Sublist (dehyphGo o l) (o.toList ++ l) := by
  induction o, l using dehyphGo.induct with
  | case1 => simp [dehyphGo.eq_1]
  | case2 c rest ih => simpa using ih
  | case3 a => simp [dehyphGo.eq_3]
  | case4 a b rest2 hw ih =>
      simp only [Option.toList, List.cons_append, List.nil_append]
      rw [dehyphGo.eq_4, if_pos hw]
      simp only [Option.toList, List.nil_append] at ih
      exact (((ih.cons₂ b).cons '\n').cons '-').cons₂ a
  | case5 a b rest2 hw ih =>
      simp only [Option.toList, List.cons_append, List.nil_append]
      rw [dehyphGo.eq_4, if_neg hw]
      simp only [Option.toList, List.cons_append, List.nil_append] at ih
      exact ((ih.cons₂ '\n').cons₂ '-').cons₂ a
  | case6 a c rest hne ih =>
      rw [dehyphGo.eq_5 a c rest hne]
      simp only [Option.toList, List.cons_append, List.nil_append] at ih ⊢
      exact ih.cons₂ a

/-- A string without any occurrence of the de-hyphenation pattern is left
unchanged by the de-hyphenation scan. -/
theorem dehyphGo_id (o : Option Char) (l : List Char)
    (h : hasMatch (o.toList ++ l) = false) : dehyphGo o l = o.toList ++ l := by
  induction o, l using dehyphGo.induct with
  | case1 => simp [dehyphGo.eq_1]
  | case2 c rest ih => simpa [dehyphGo.eq_2] using ih h
  | case3 a => simp [dehyphGo.eq_3]
  | case4 a b rest2 hw ih =>
      exfalso
      simp only [Option.toList, List.cons_append, List.nil_append, hasMatch_cons] at h
      have : winMatch a ('-' :: '\n' :: b :: rest2) = true := by
        unfold winMatch
        exact hw
      simp [this] at h
  | case5 a b rest2 hw ih =>
      simp only [Option.toList, List.cons_append, List.nil_append,
        hasMatch_cons, Bool.or_eq_false_iff] at h ih
      rw [dehyphGo.eq_4, if_neg hw, ih h.2.2.2]
      rfl
  | case6 a c rest hne ih =>
      simp only [Option.toList, List.cons_append, List.nil_append,
        hasMatch_cons, Bool.or_eq_false_iff] at h ih
      rw [dehyphGo.eq_5 a c rest hne, ih ⟨h.2.1, h.2.2⟩]
      rfl

/-! ### Newline-collapse lemmas -/

theorem collapseGo_nil (n : Nat) :
    collapseGo n [] = List.replicate (min n 2) '\n' := rfl

theorem collapseGo_cons (n : Nat) (c : Char) (rest : List Char) :
    collapseGo n (c :: rest)
      = if c = '\n' then collapseGo (n+1) rest
        else List.replicate (min n 2) '\n' ++ c :: collapseGo 0 rest := rfl

theorem mem_collapseGo (l : List Char) :
    ∀ (n : Nat) (c : Char), c ∈ collapseGo n l → c = '\n' ∨ c ∈ l := by
  induction l with
  | nil =>
      intro n c hc
      rw [collapseGo_nil] at hc
      exact Or.inl (List.eq_of_mem_replicate hc)
  | cons d rest ih =>
      intro n c hc
      rw [collapseGo_cons] at hc
      by_cases hd : d = '\n'
      · rw [if_pos hd] at hc
        rcases ih (n+1) c hc with h | h
        · exact Or.inl h
        · exact Or.inr (List.mem_cons_of_mem d h)
      · rw [if_neg hd] at hc
        rcases List.mem_append.mp hc with h | h
        · exact Or.inl (List.eq_of_mem_replicate h)
        · rcases List.mem_cons.mp h with h | h
          · exact Or.inr (h ▸ List.mem_cons_self d rest)
          · rcases ih 0 c h with h' | h'
            · exact Or.inl h'
            · exact Or.inr (List.mem_cons_of_mem d h')

/-- With at least one pending newline the collapse output starts with a
newline. -/
theorem collapseGo_succ_head (l : List Char) :
    ∀ n : Nat, ∃ tl, collapseGo (n+1) l = '\n' :: tl := by
  induction l with
  | nil =>
      intro n
      rw [collapseGo_nil]
      exact ⟨List.replicate (min (n+1) 2 - 1) '\n', by
        have h2 : min (n+1) 2 = (min n 1) + 1 := by omega
        simp [h2, List.replicate_succ]⟩
  | cons d rest ih =>
      intro n
      rw [collapseGo_cons]
      by_cases hd : d = '\n'
      · rw [if_pos hd]
        exact ih (n+1)
      · rw [if_neg hd]
        have h2 : min (n+1) 2 = (min n 1) + 1 := by omega
        exact ⟨List.replicate (min n 1) '\n' ++ d :: collapseGo 0 rest, by
          simp [h2, List.replicate_succ]⟩

/-- With at least two pending newlines the collapse output starts with two
newlines. -/
theorem collapseGo_two_head (l : List Char) :
    ∀ n : Nat, ∃ tl, collapseGo (n+2) l = '\n' :: '\n' :: tl := by
  induction l with
  | nil =>
      intro n
      rw [collapseGo_nil]
      exact ⟨[], by
        have h2 : min (n+2) 2 = 2 := by omega
        simp [h2, List.replicate_succ]⟩
  | cons d rest ih =>
      intro n
      rw [collapseGo_cons]
      by_cases hd : d = '\n'
      · rw [if_pos hd]
        exact ih (n+1)
      · rw [if_neg hd]
        have h2 : min (n+2) 2 = 2 := by omega
        exact ⟨d :: collapseGo 0 rest, by simp [h2, List.replicate_succ]⟩

/-- Inversion: a collapse output starting with a non-newline character
starts exactly as the input. -/
theorem collapseGo_zero_cons_inv (l : List Char) (x : Char) (out : List Char)
    (h : collapseGo 0 l = x :: out) (hx : x ≠ '\n') :
    ∃ l2, l = x :: l2 ∧ out = collapseGo 0 l2 := by
  cases l with
  | nil => simp [collapseGo_nil] at h
  | cons d rest =>
      rw [collapseGo_cons] at h
      by_cases hd : d = '\n'
      · rw [if_pos hd] at h
        obtain ⟨tl, htl⟩ := collapseGo_succ_head rest 0
        rw [htl] at h
        cases h
        exact absurd rfl hx
      · rw [if_neg hd] at h
        simp only [Nat.zero_min, List.replicate_zero, List.nil_append] at h
        cases h
        exact ⟨rest, rfl, rfl⟩

/-- Inversion: when a collapse with one pending newline emits a newline
followed by a non-newline `b`, the input starts with `b`. -/
theorem collapseGo_one_inv (l : List Char) (b : Char) (out : List Char)
    (h : collapseGo 1 l = '\n' :: b :: out) (hb : b ≠ '\n') :
    ∃ l2, l = b :: l2 := by
  cases l with
  | nil =>
      rw [collapseGo_nil] at h
      simp [List.replicate] at h
  | cons d rest =>
      rw [collapseGo_cons] at h
      by_cases hd : d = '\n'
      · rw [if_pos hd] at h
        obtain ⟨tl, htl⟩ := collapseGo_two_head rest 0
        rw [htl] at h
        cases h
        exact absurd rfl hb
      · rw [if_neg hd] at h
        simp only [show min 1 2 = 1 from rfl, List.replicate_succ,
          List.replicate_zero, List.nil_append, List.cons_append,
          List.cons.injEq, true_and] at h
        exact ⟨rest, by rw [h.1]⟩

/-- Inversion: a collapse output starting with a newline and then a
non-newline `b` comes from an input starting with a newline and then `b`. -/
theorem collapseGo_zero_nl_inv (l : List Char) (b : Char) (out : List Char)
    (h : collapseGo 0 l = '\n' :: b :: out) (hb : b ≠ '\n') :
    ∃ l2, l = '\n' :: b :: l2 := by
  cases l with
  | nil => simp [collapseGo_nil] at h
  | cons d rest =>
      rw [collapseGo_cons] at h
      by_cases hd : d = '\n'
      · rw [if_pos hd] at h
        obtain ⟨l2, hl2⟩ := collapseGo_one_inv rest b out h hb
        exact ⟨l2, by rw [hd, hl2]⟩
      · rw [if_neg hd] at h
        simp only [Nat.zero_min, List.replicate_zero, List.nil_append,
          List.cons.injEq] at h
        exact absurd h.1 hd

/-- The newline collapse creates no new de-hyphenation match at the head. -/
theorem winMatch_collapseGo (c : Char) (l : List Char)
    (h : winMatch c (collapseGo 0 l) = true) : winMatch c l = true := by
  unfold winMatch at h
  split at h
  · next b tail heq =>
      -- collapseGo 0 l = '-' :: '\n' :: b :: tail with b a word character
      have hb : b ≠ '\n' := by
        intro hb
        rw [hb] at h
        simp [isWordChar] at h
      obtain ⟨l2, hl2, hout⟩ := collapseGo_zero_cons_inv l '-' ('\n' :: b :: tail)
        heq (by decide)
      obtain ⟨l3, hl3⟩ := collapseGo_zero_nl_inv l2 b tail hout.symm hb
      rw [hl2, hl3]
      unfold winMatch
      exact h
  · exact absurd h (by simp)

/-- A newline never starts a de-hyphenation match. -/
theorem winMatch_nl (l : List Char) : winMatch '\n' l = false :=
  winMatch_eq_false_of_nonword '\n' l (by decide)

theorem hasMatch_replicate_append (L : List Char) :
    ∀ m : Nat, hasMatch (List.replicate m '\n' ++ L) = hasMatch L := by
  intro m
  induction m with
  | zero => rfl
  | succ k ih =>
      rw [List.replicate_succ, List.cons_append, hasMatch_cons, winMatch_nl, ih]
      simp

/-- The newline collapse preserves absence of de-hyphenation matches. -/
theorem hasMatch_collapseGo (l : List Char) :
    ∀ n : Nat, hasMatch l = false → hasMatch (collapseGo n l) = false := by
  induction l with
  | nil =>
      intro n _
      rw [collapseGo_nil, ← List.append_nil (List.replicate (min n 2) '\n'),
        hasMatch_replicate_append]
      rfl
  | cons d rest ih =>
      intro n h
      rw [hasMatch_cons, Bool.or_eq_false_iff] at h
      rw [collapseGo_cons]
      by_cases hd : d = '\n'
      · rw [if_pos hd]
        exact ih (n+1) h.2
      · rw [if_neg hd]
        rw [hasMatch_replicate_append, hasMatch_cons, Bool.or_eq_false_iff]
        refine ⟨?_, ih 0 h.2⟩
        by_cases hw : winMatch d (collapseGo 0 rest) = true
        · rw [winMatch_collapseGo d rest hw] at h
          exact absurd h.1 (by simp)
        · simpa using hw

/-! ### Triple-newline lemmas -/

theorem hasTriple_cons (c : Char) (l : List Char) :
    hasTriple (c :: l) = (winTriple c l || hasTriple l) := rfl

theorem winTriple_of_ne (c : Char) (l : List Char) (h : c ≠ '\n') :
    winTriple c l = false := by
  unfold winTriple
  split <;> simp [h]

theorem winTriple_not_nl_head (a c : Char) (L : List Char) (hc : c ≠ '\n') :
    winTriple a (c :: L) = false := by
  unfold winTriple
  split
  · next heq =>
      simp only [List.cons.injEq] at heq
      exact absurd heq.1 hc
  · rfl

theorem winTriple_not_second (a c : Char) (L : List Char) (hc : c ≠ '\n') :
    winTriple a ('\n' :: c :: L) = false := by
  unfold winTriple
  split
  · next heq =>
      rw [List.cons.injEq, List.cons.injEq] at heq
      exact absurd heq.2.1 hc
  · rfl

/-- The collapse output never contains three consecutive newlines. -/
theorem hasTriple_collapseGo (l : List Char) :
    ∀ n : Nat, hasTriple (collapseGo n l) = false := by
  induction l with
  | nil =>
      intro n
      rw [collapseGo_nil]
      rcases n with _ | _ | n
      · decide
      · decide
      · have h2 : min (n+2) 2 = 2 := by omega
        rw [h2]
        decide
  | cons d rest ih =>
      intro n
      rw [collapseGo_cons]
      by_cases hd : d = '\n'
      · rw [if_pos hd]
        exact ih (n+1)
      · rw [if_neg hd]
        have tail0 : hasTriple (d :: collapseGo 0 rest) = false := by
          rw [hasTriple_cons, winTriple_of_ne d _ hd, ih 0]
          rfl
        rcases n with _ | _ | n
        · simpa using tail0
        · simp only [show min 1 2 = 1 from rfl, List.replicate_succ,
            List.replicate_zero, List.nil_append, List.cons_append]
          rw [hasTriple_cons, winTriple_not_nl_head '\n' d _ hd, tail0]
          rfl
        · have h2 : min (n+2) 2 = 2 := by omega
          simp only [h2, List.replicate_succ, List.replicate_zero,
            List.nil_append, List.cons_append]
          rw [hasTriple_cons, winTriple_not_second '\n' d _ hd,
            hasTriple_cons, winTriple_not_nl_head '\n' d _ hd, tail0]
          rfl

/-- On triple-free inputs the collapse is the identity (with 0, 1 or 2
pending newlines counted as a prefix). -/
theorem collapseGo_id (l : List Char) :
    (hasTriple l = false → collapseGo 0 l = l)
    ∧ (hasTriple ('\n' :: l) = false → collapseGo 1 l = '\n' :: l)
    ∧ (hasTriple ('\n' :: '\n' :: l) = false → collapseGo 2 l = '\n' :: '\n' :: l) := by
  induction l with
  | nil =>
      refine ⟨fun _ => rfl, fun _ => ?_, fun _ => ?_⟩
      · rw [collapseGo_nil]
        rfl
      · rw [collapseGo_nil]
        rfl
  | cons c rest ih =>
      by_cases hc : c = '\n'
      · subst hc
        refine ⟨fun h => ?_, fun h => ?_, fun h => ?_⟩
        · rw [collapseGo_cons, if_pos rfl]
          exact ih.2.1 h
        · rw [collapseGo_cons, if_pos rfl]
          exact ih.2.2 h
        · exfalso
          rw [hasTriple_cons] at h
          have : winTriple '\n' ('\n' :: '\n' :: rest) = true := by
            unfold winTriple
            simp
          simp [this] at h
      · have hrest : ∀ L : List Char, hasTriple (c :: L) = false → hasTriple L = false := by
          intro L h
          rw [hasTriple_cons, Bool.or_eq_false_iff] at h
          exact h.2
        refine ⟨fun h => ?_, fun h => ?_, fun h => ?_⟩
        · rw [collapseGo_cons, if_neg hc]
          simp only [Nat.zero_min, List.replicate_zero, List.nil_append]
          rw [ih.1 (hrest rest h)]
        · rw [collapseGo_cons, if_neg hc]
          simp only [show min 1 2 = 1 from rfl, List.replicate_succ,
            List.replicate_zero, List.nil_append, List.cons_append]
          rw [hasTriple_cons, Bool.or_eq_false_iff] at h
          rw [ih.1 (hrest rest h.2)]
        · rw [collapseGo_cons, if_neg hc]
          simp only [show min 2 2 = 2 from rfl, List.replicate_succ,
            List.replicate_zero, List.nil_append, List.cons_append]
          rw [hasTriple_cons, Bool.or_eq_false_iff, hasTriple_cons,
            Bool.or_eq_false_iff] at h
          rw [ih.1 (hrest rest h.2.2)]

theorem collapseGo_replicate (j : Nat) :
    ∀ k : Nat, collapseGo k (List.replicate j '\n') = List.replicate (min (k+j) 2) '\n' := by
  induction j with
  | zero =>
      intro k
      rw [List.replicate_zero, collapseGo_nil]
      congr 1
  | succ j ih =>
      intro k
      rw [List.replicate_succ, collapseGo_cons, if_pos rfl, ih (k+1)]
      congr 1
      omega

/-- The output of the full normalizer pipeline contains no carriage return,
no curly quote, and no triple newline. -/
theorem normChars_invariants (l : List Char) :
    '\r' ∉ normChars l
    ∧ (∀ q, q = '“' ∨ q = '”' ∨ q = '‘' ∨ q = '’' → q ∉ normChars l)
    ∧ hasTriple (normChars l) = false := by
  have hx_cr : '\r' ∉ replQuotes (replCR (replCRLF l)) :=
    cr_not_mem_replQuotes _ (cr_not_mem_replCR _)
  have hz_sub : List.Sublist (dehyphGo none (replQuotes (replCR (replCRLF l))))
      (replQuotes (replCR (replCRLF l))) := by
    simpa using dehyphGo_sublist none (replQuotes (replCR (replCRLF l)))
  have hz_cr : '\r' ∉ dehyphGo none (replQuotes (replCR (replCRLF l))) :=
    fun h => hx_cr (hz_sub.subset h)
  have hmain : normChars l
      = collapseGo 0 (dehyphGo none (replQuotes (replCR (replCRLF l)))) := rfl
  refine ⟨?_, ?_, ?_⟩
  · intro h
    rw [hmain] at h
    rcases mem_collapseGo _ 0 '\r' h with h' | h'
    · exact absurd h' (by decide)
    · exact hz_cr h'
  · intro q hq h
    have hx_q : q ∉ replQuotes (replCR (replCRLF l)) :=
      curly_not_mem_replQuotes _ q hq
    have hz_q : q ∉ dehyphGo none (replQuotes (replCR (replCRLF l))) :=
      fun h' => hx_q (hz_sub.subset h')
    rw [hmain] at h
    rcases mem_collapseGo _ 0 q h with h' | h'
    · rcases hq with h1 | h1 | h1 | h1 <;> rw [h1] at h' <;> exact absurd h' (by decide)
    · exact hz_q h'
  · rw [hmain]
    exact hasTriple_collapseGo _ 0

/-! ## Claim C9: output invariants of the normalizer -/

/-- C9: for every input string, the normalizer output contains no carriage
return, none of the four curly quote characters, and no run of three or
more consecutive newlines. -/
theorem normalize_output_invariants (s : String) :
    '\r' ∉ (normalize s).data
    ∧ '“' ∉ (normalize s).data ∧ '”' ∉ (normalize s).data
    ∧ '‘' ∉ (normalize s).data ∧ '’' ∉ (normalize s).data
    ∧ hasTriple (normalize s).data = false := by
  have h := normChars_invariants s.data
  have hdata : (normalize s).data = normChars s.data := rfl
  rw [hdata]
  exact ⟨h.1, h.2.1 _ (Or.inl rfl), h.2.1 _ (Or.inr (Or.inl rfl)),
    h.2.1 _ (Or.inr (Or.inr (Or.inl rfl))),
    h.2.1 _ (Or.inr (Or.inr (Or.inr rfl))), h.2.2⟩

/-! ## Claim C2: (non-)idempotence of the normalizer -/

/-- Counterexample to C2 as stated: chained soft line-wraps de-hyphenate
only one step per pass, because `re.sub` resumes scanning after each
replacement: the first pass turns "a-\nb-\nc" into "ab-\nc", and only the
second pass reaches "abc". -/
theorem normalize_not_idempotent_counterexample :
    normalize "a-\nb-\nc" = "ab-\nc"
    ∧ normalize (normalize "a-\nb-\nc") = "abc"
    ∧ normalize (normalize "a-\nb-\nc") ≠ normalize "a-\nb-\nc" := by
  refine ⟨by decide, by decide, by decide⟩

/-- C2 amended: `normalize` is idempotent on every string whose single
de-hyphenation pass leaves no residual `<word>-\n<word>` occurrence (in
particular whenever soft-wrapped hyphens are not chained); the
counterexample shows the unrestricted claim fails. -/
theorem normalize_idempotent_without_chained_wraps (s : String)
    (h : hasMatch (dehyph (replQuotes (replCR (replCRLF s.data)))) = false) :
    normalize (normalize s) = normalize s := by
  have hx_cr : '\r' ∉ replQuotes (replCR (replCRLF s.data)) :=
    cr_not_mem_replQuotes _ (cr_not_mem_replCR _)
  have hz_sub : List.Sublist (dehyphGo none (replQuotes (replCR (replCRLF s.data))))
      (replQuotes (replCR (replCRLF s.data))) := by
    simpa using dehyphGo_sublist none (replQuotes (replCR (replCRLF s.data)))
  have hz_cr : '\r' ∉ dehyphGo none (replQuotes (replCR (replCRLF s.data))) :=
    fun hmem => hx_cr (hz_sub.subset hmem)
  have hinv := normChars_invariants s.data
  have hy_cr : '\r' ∉ normChars s.data := hinv.1
  have hy_curly : ∀ q ∈ normChars s.data,
      q ≠ '“' ∧ q ≠ '”' ∧ q ≠ '‘' ∧ q ≠ '’' := by
    intro q hq
    refine ⟨?_, ?_, ?_, ?_⟩ <;> intro he <;> subst he
    · exact hinv.2.1 _ (Or.inl rfl) hq
    · exact hinv.2.1 _ (Or.inr (Or.inl rfl)) hq
    · exact hinv.2.1 _ (Or.inr (Or.inr (Or.inl rfl))) hq
    · exact hinv.2.1 _ (Or.inr (Or.inr (Or.inr rfl))) hq
  have hmz : hasMatch (dehyphGo none (replQuotes (replCR (replCRLF s.data)))) = false := h
  have hmy : hasMatch (normChars s.data) = false := by
    have : normChars s.data
        = collapseGo 0 (dehyphGo none (replQuotes (replCR (replCRLF s.data)))) := rfl
    rw [this]
    exact hasMatch_collapseGo _ 0 hmz
  have hty : hasTriple (normChars s.data) = false := hinv.2.2
  have hnn : normChars (normChars s.data) = normChars s.data := by
    set y := normChars s.data with hy
    show normChars y = y
    unfold normChars
    rw [replCRLF_id y hy_cr, replCR_id y hy_cr, replQuotes_id y hy_curly]
    have hdh : dehyph y = y := by
      unfold dehyph
      simpa using dehyphGo_id none y (by simpa using hmy)
    rw [hdh]
    exact (collapseGo_id y).1 hty
  show (⟨normChars (normalize s).data⟩ : String) = normalize s
  have hdata : (normalize s).data = normChars s.data := rfl
  rw [hdata, hnn]
  rfl

set_option maxRecDepth 4000 in
/-- Witness for the amended C2: a string exercising all four rules (one
soft-wrapped hyphen, curly quotes, a CRLF, a long newline run) on which the
de-hyphenation pass leaves no residual pattern, so normalizing twice equals
normalizing once. -/
theorem normalize_idempotent_witness :
    hasMatch (dehyph (replQuotes (replCR (replCRLF "a-\nb “q”\r\n\n\n\nx".data)))) = false
    ∧ normalize (normalize "a-\nb “q”\r\n\n\n\nx") = normalize "a-\nb “q”\r\n\n\n\nx" :=
  ⟨by decide, normalize_idempotent_without_chained_wraps "a-\nb “q”\r\n\n\n\nx" (by decide)⟩

/-! ## Claim C7: the four rules, in order -/

/-- C7: the normalizer is a total function applying exactly the four rules
in source order: (1) CRLF and lone CR become LF (the result carries no CR);
(2) the curly double quotes map to the straight double quote and the curly
single quotes to the straight single quote, all other characters unchanged;
(3) each `<word>-\n<word>` occurrence collapses to the two word characters
under the left-to-right scan, and strings without the pattern are
unchanged; (4) runs of three or more newlines collapse to exactly two
(output triple-free, triple-free inputs unchanged). -/
theorem normalize_four_rules (s : String) (c a b : Char) (l : List Char) (n : Nat) :
    normalize s = ⟨collapseNL (dehyph (replQuotes (replCR (replCRLF s.data))))⟩
    ∧ '\r' ∉ replCR (replCRLF s.data)
    ∧ quoteChar '“' = '"' ∧ quoteChar '”' = '"'
    ∧ quoteChar '‘' = '\'' ∧ quoteChar '’' = '\''
    ∧ hasTriple (collapseNL l) = false
    ∧ collapseNL (List.replicate (n+3) '\n') = ['\n', '\n']
    ∧ (c ≠ '“' → c ≠ '”' → c ≠ '‘' → c ≠ '’' → quoteChar c = c)
    ∧ (isWordChar a = true → isWordChar b = true →
        dehyph (a :: '-' :: '\n' :: b :: l) = a :: b :: dehyph l)
    ∧ (hasMatch l = false → dehyph l = l)
    ∧ (hasTriple l = false → collapseNL l = l) := by
  refine ⟨rfl, cr_not_mem_replCR _, rfl, rfl, rfl, rfl, hasTriple_collapseGo l 0,
    ?_, ?_, ?_, ?_, fun h => (collapseGo_id l).1 h⟩
  · show collapseGo 0 (List.replicate (n+3) '\n') = ['\n', '\n']
    rw [collapseGo_replicate (n+3) 0]
    have : min (0 + (n+3)) 2 = 2 := by omega
    rw [this]
    rfl
  · intro h1 h2 h3 h4
    unfold quoteChar
    rw [if_neg (by simp [h1, h2]), if_neg (by simp [h3, h4])]
  · intro ha hb
    unfold dehyph
    rw [dehyphGo.eq_2, dehyphGo.eq_4, if_pos (by simp [ha, hb])]
  · intro hm
    unfold dehyph
    simpa using dehyphGo_id none l (by simpa using hm)

set_option maxRecDepth 4000 in
/-- Witness for C7 at concrete inputs: the rule equations evaluated on a
string containing a CRLF, curly quotes, a soft-wrapped hyphen and a long
newline run, plus the conditional rules at concrete characters and lists. -/
theorem normalize_four_rules_witness :
    normalize "x\r\n“a-\nb”\n\n\n\ny"
        = ⟨collapseNL (dehyph (replQuotes (replCR (replCRLF "x\r\n“a-\nb”\n\n\n\ny".data))))⟩
    ∧ '\r' ∉ replCR (replCRLF "x\r\n“a-\nb”\n\n\n\ny".data)
    ∧ quoteChar '“' = '"' ∧ quoteChar '”' = '"'
    ∧ quoteChar '‘' = '\'' ∧ quoteChar '’' = '\''
    ∧ hasTriple (collapseNL ['x']) = false
    ∧ collapseNL (List.replicate (1+3) '\n') = ['\n', '\n']
    ∧ quoteChar 'z' = 'z'
    ∧ dehyph ('p' :: '-' :: '\n' :: 'q' :: ['x']) = 'p' :: 'q' :: dehyph ['x']
    ∧ dehyph ['x'] = ['x']
    ∧ collapseNL ['x'] = ['x'] := by
  have T := normalize_four_rules "x\r\n“a-\nb”\n\n\n\ny" 'z' 'p' 'q' ['x'] 1
  exact ⟨T.1, T.2.1, T.2.2.1, T.2.2.2.1, T.2.2.2.2.1, T.2.2.2.2.2.1,
    T.2.2.2.2.2.2.1, T.2.2.2.2.2.2.2.1,
    T.2.2.2.2.2.2.2.2.1 (by decide) (by decide) (by decide) (by decide),
    T.2.2.2.2.2.2.2.2.2.1 (by decide) (by decide),
    T.2.2.2.2.2.2.2.2.2.2.1 (by decide),
    T.2.2.2.2.2.2.2.2.2.2.2 (by decide)⟩

end Ingest
